import Mathlib

/-!
Verification of the diff/mirror reconciliation core of the `rc` CLI.

The definitions below are a shallow embedding of the Rust source:
* `crates/cli/src/commands/diff.rs` — `compare_objects`, `list_objects_map`
* `crates/cli/src/commands/mirror.rs` — `compare_objects_internal`,
  `list_objects_map`, the planning and execution loops of `execute`
* `crates/core/src/retry.rs` — `retry_with_backoff`, `calculate_backoff`,
  `rand_jitter`

Rust `HashMap<String, FileInfo>` values are embedded as association lists
whose key lists are assumed `Nodup` where a theorem needs it; `HashMap`
iteration order is immaterial for the comparison routines because their
output is sorted before return.  Rust `String` ordering (`str::cmp`,
byte-wise lexicographic on UTF-8) coincides with Lean's `String` order
(lexicographic on code points), since UTF-8 encoding preserves the
code-point order.
-/

/-- Embeds Rust struct `FileInfo` (diff.rs / mirror.rs): per-key object
metadata captured at listing time.  `size` is `Option<i64>`; only equality
of sizes is ever consulted, so `Int` models `i64` exactly.  The Rust code
stores `modified` as the `to_string` of an optional timestamp; it is
embedded as an abstract optional string. -/
structure FileInfo where
  size : Option Int
  modified : Option String
  etag : Option String
deriving DecidableEq

/-- Embeds Rust enum `DiffStatus` (diff.rs). -/
inductive DiffStatus where
  | Same
  | Different
  | OnlyFirst
  | OnlySecond
deriving DecidableEq

/-- Embeds Rust struct `DiffEntry` (diff.rs). -/
structure DiffEntry where
  key : String
  status : DiffStatus
  first_size : Option Int
  second_size : Option Int
  first_modified : Option String
  second_modified : Option String
deriving DecidableEq

/-- A materialized listing: the content of the Rust
`HashMap<String, FileInfo>` as an association list. -/
abbrev Listing := List (String × FileInfo)

/-- Keys of a listing. -/
def keysOf (m : Listing) : List String := m.map Prod.fst

/-- Embeds `HashMap::get` on a listing (first match; unique under `Nodup`). -/
def lookupL : Listing → String → Option FileInfo
  | [], _ => none
  | (k, v) :: rest, key => if k = key then some v else lookupL rest key

/-- Embeds `HashMap::insert` on a listing: replace an existing binding for
the key, else append. -/
def insertL : Listing → String → FileInfo → Listing
  | [], k, v => [(k, v)]
  | (k', v') :: rest, k, v =>
      if k' = k then (k, v) :: rest else (k', v') :: insertL rest k v

/-- The fingerprint-equality rule shared by diff.rs `compare_objects` and
mirror.rs `compare_objects_internal`:
`first_info.size == second_info.size && (first_info.etag == second_info.etag || first_info.etag.is_none())`. -/
def is_same (first_info second_info : FileInfo) : Bool :=
  first_info.size == second_info.size &&
    (first_info.etag == second_info.etag || first_info.etag.isNone)

/-- The entry pushed for a key present in both listings (diff.rs lines
311-331). -/
def bothEntry (k : String) (fi si : FileInfo) : DiffEntry :=
  { key := k
    status := if is_same fi si then .Same else .Different
    first_size := fi.size
    second_size := si.size
    first_modified := fi.modified
    second_modified := si.modified }

/-- The entry pushed for a key only in the first listing (diff.rs lines
333-342). -/
def onlyFirstEntry (k : String) (fi : FileInfo) : DiffEntry :=
  { key := k
    status := .OnlyFirst
    first_size := fi.size
    second_size := none
    first_modified := fi.modified
    second_modified := none }

/-- The entry pushed for a key only in the second listing (diff.rs lines
346-357). -/
def onlySecondEntry (k : String) (si : FileInfo) : DiffEntry :=
  { key := k
    status := .OnlySecond
    first_size := none
    second_size := si.size
    first_modified := none
    second_modified := si.modified }

/-- First loop of diff.rs `compare_objects`: one pass over `first`. -/
def entriesFromFirst (first second : Listing) (diff_only : Bool) :
    List DiffEntry :=
  first.filterMap fun kv =>
    match lookupL second kv.1 with
    | some si =>
        let e := bothEntry kv.1 kv.2 si
        if !diff_only || decide (e.status ≠ .Same) then some e else none
    | none => some (onlyFirstEntry kv.1 kv.2)

/-- Second loop of diff.rs `compare_objects`: keys of `second` absent from
`first`. -/
def entriesFromSecond (first second : Listing) : List DiffEntry :=
  second.filterMap fun kv =>
    if lookupL first kv.1 = none then some (onlySecondEntry kv.1 kv.2)
    else none

/-- Sort order used by `entries.sort_by(|a, b| a.key.cmp(&b.key))`. -/
def keyLe (a b : DiffEntry) : Prop := a.key ≤ b.key

instance : DecidableRel keyLe := fun a b =>
  decidable_of_iff (a.key.data ≤ b.key.data) String.le_iff_toList_le.symm

instance : IsTotal DiffEntry keyLe := ⟨fun a b => le_total a.key b.key⟩

instance : IsTrans DiffEntry keyLe := ⟨fun _ _ _ h1 h2 => le_trans h1 h2⟩

/-- Embeds diff.rs `compare_objects(first, second, diff_only)`. -/
def compare_objects (first second : Listing) (diff_only : Bool) :
    List DiffEntry :=
  List.insertionSort keyLe
    (entriesFromFirst first second diff_only ++ entriesFromSecond first second)

/-- Embeds mirror.rs `compare_objects_internal(source, target)` (the same
two loops, with every shared key pushed unconditionally). -/
def compare_objects_internal (source target : Listing) : List DiffEntry :=
  List.insertionSort keyLe
    ((source.filterMap fun kv =>
        match lookupL target kv.1 with
        | some ti => some (bothEntry kv.1 kv.2 ti)
        | none => some (onlyFirstEntry kv.1 kv.2)) ++
      entriesFromSecond source target)

/-! ### Reconciliation planner (mirror.rs `execute`, lines 152-184) -/

/-- The plan accumulated by the loop over `diff_entries` in mirror.rs:
`to_copy` keys, `to_remove` keys, and the `skipped` counter. -/
structure MirrorPlan where
  toCopy : List String
  toRemove : List String
  skipped : Nat
deriving DecidableEq

/-- Embeds the planning loop of mirror.rs `execute`: `OnlyFirst` pushes to
`to_copy` when the key resolves in the source map (`if let Some(info) =
source_objects.get(&entry.key)`); `Different` pushes to `to_copy` under
`overwrite`, else increments `skipped`; `OnlySecond` pushes to `to_remove`
under `remove`; `Same` increments `skipped`. -/
def planEntries (source : Listing) (overwrite remove : Bool) :
    List DiffEntry → MirrorPlan
  | [] => ⟨[], [], 0⟩
  | e :: rest =>
    let p := planEntries source overwrite remove rest
    match e.status with
    | .OnlyFirst =>
        if (lookupL source e.key).isSome then
          ⟨e.key :: p.toCopy, p.toRemove, p.skipped⟩
        else p
    | .Different =>
        if overwrite then
          if (lookupL source e.key).isSome then
            ⟨e.key :: p.toCopy, p.toRemove, p.skipped⟩
          else p
        else ⟨p.toCopy, p.toRemove, p.skipped + 1⟩
    | .OnlySecond =>
        if remove then ⟨p.toCopy, e.key :: p.toRemove, p.skipped⟩ else p
    | .Same => ⟨p.toCopy, p.toRemove, p.skipped + 1⟩

/-- The plan mirror.rs computes before branching on `dry_run`. -/
def mirrorPlan (source target : Listing) (overwrite remove : Bool) :
    MirrorPlan :=
  planEntries source overwrite remove (compare_objects_internal source target)

/-! ### Executor (mirror.rs `execute`, lines 252-347) -/

/-- A store-capability call issued by the executor. -/
inductive StoreOp where
  | get : String → StoreOp
  | put : String → StoreOp
  | del : String → StoreOp
deriving DecidableEq

/-- Success/error counters of one executor phase together with the trace
of issued calls; the `Nat` paired with each call is its per-call attempt
index (the code always issues attempt 0 — it never re-invokes a call). -/
structure PhaseResult where
  succ : Nat
  errs : Nat
  calls : List (StoreOp × Nat)
deriving DecidableEq

/-- Copy loop of mirror.rs `execute` (lines 256-306): per key one
`get_object` call, and only on its success one `put_object` call;
`copied` increments only when both succeed, any failure increments
`errors` and the loop continues.  `beh` gives the outcome of a call at a
given attempt index. -/
def execCopies (beh : StoreOp → Nat → Bool) : List String → PhaseResult
  | [] => ⟨0, 0, []⟩
  | k :: ks =>
    let r := execCopies beh ks
    if beh (.get k) 0 then
      if beh (.put k) 0 then
        ⟨r.succ + 1, r.errs,
          (StoreOp.get k, 0) :: (StoreOp.put k, 0) :: r.calls⟩
      else
        ⟨r.succ, r.errs + 1,
          (StoreOp.get k, 0) :: (StoreOp.put k, 0) :: r.calls⟩
    else ⟨r.succ, r.errs + 1, (StoreOp.get k, 0) :: r.calls⟩

/-- Delete loop of mirror.rs `execute` (lines 311-343): one
`delete_object` call per key; failure increments `errors` and the loop
continues. -/
def execDeletes (beh : StoreOp → Nat → Bool) : List String → PhaseResult
  | [] => ⟨0, 0, []⟩
  | k :: ks =>
    let r := execDeletes beh ks
    if beh (.del k) 0 then
      ⟨r.succ + 1, r.errs, (StoreOp.del k, 0) :: r.calls⟩
    else ⟨r.succ, r.errs + 1, (StoreOp.del k, 0) :: r.calls⟩

/-- Embeds Rust struct `MirrorOutput` (mirror.rs), minus the echoed
source/target path strings. -/
structure MirrorOutput where
  copied : Nat
  removed : Nat
  skipped : Nat
  errors : Nat
  dry_run : Bool
deriving DecidableEq

/-- Embeds the compare → plan → (dry-run report | copy loop; delete loop)
pipeline of mirror.rs `execute`, together with the trace of store calls it
issues.  The dry-run branch reports `to_copy.len()`, `to_remove.len()`,
`skipped`, `errors = 0` and returns before any store call. -/
def mirrorRun (source target : Listing) (overwrite remove dryRun : Bool)
    (beh : StoreOp → Nat → Bool) : MirrorOutput × List (StoreOp × Nat) :=
  let p := mirrorPlan source target overwrite remove
  if dryRun then
    (⟨p.toCopy.length, p.toRemove.length, p.skipped, 0, true⟩, [])
  else
    let c := execCopies beh p.toCopy
    let d := if remove then execDeletes beh p.toRemove else ⟨0, 0, []⟩
    (⟨c.succ, d.succ, p.skipped, c.errs + d.errs, false⟩, c.calls ++ d.calls)

/-! ### Retry governor (retry.rs) -/

/-- Embeds Rust struct `RetryConfig` (fields as used by retry.rs:
`max_attempts: u32`, `initial_backoff_ms: u64`, `max_backoff_ms: u64`). -/
structure RetryConfig where
  max_attempts : Nat
  initial_backoff_ms : Nat
  max_backoff_ms : Nat
deriving DecidableEq

/-- Wrapping 64-bit arithmetic (Rust release-mode `u64`). -/
def u64 (n : Nat) : Nat := n % 2 ^ 64

/-- Embeds retry.rs `rand_jitter(max)`: `nanos % max.max(1)`, with the
clock-derived `subsec_nanos` value made an explicit parameter. -/
def rand_jitter (nanos mx : Nat) : Nat := nanos % max mx 1

/-- Embeds retry.rs `calculate_backoff(config, attempt)`:
`base_ms = initial_backoff_ms * (1 << (attempt-1).min(10))` (wrapping),
`capped_ms = base_ms.min(max_backoff_ms)`, sleep
`capped_ms + rand_jitter(capped_ms)` milliseconds (wrapping). -/
def calculate_backoff (config : RetryConfig) (attempt nanos : Nat) : Nat :=
  let base_ms := u64 (config.initial_backoff_ms * 2 ^ min (attempt - 1) 10)
  let capped_ms := min base_ms config.max_backoff_ms
  u64 (capped_ms + rand_jitter nanos capped_ms)

/-- Embeds the loop of retry.rs `retry_with_backoff`, starting from a
given already-consumed attempt count.  `op i` is the result of the `i`-th
invocation (1-indexed); the returned `Nat` counts invocations made.  The
loop re-invokes after a failure iff the error is retryable and the attempt
count is still below `max_attempts`. -/
def retryFrom {T E : Type} (op : Nat → Except E T) (isRetryable : E → Bool)
    (maxAttempts : Nat) (attempt : Nat) : Except E T × Nat :=
  match op (attempt + 1) with
  | .ok v => (.ok v, 1)
  | .error e =>
    if maxAttempts ≤ attempt + 1 ∨ isRetryable e = false then (.error e, 1)
    else
      let r := retryFrom op isRetryable maxAttempts (attempt + 1)
      (r.1, r.2 + 1)
termination_by maxAttempts - attempt
decreasing_by
  simp only [not_or, not_le] at *
  omega

/-- Embeds retry.rs `retry_with_backoff` (result and number of
invocations of `operation`). -/
def retryStream {T E : Type} (op : Nat → Except E T)
    (isRetryable : E → Bool) (maxAttempts : Nat) : Except E T × Nat :=
  retryFrom op isRetryable maxAttempts 0

/-! ### Listing materializer (diff.rs / mirror.rs `list_objects_map`) -/

/-- One non-directory-filtered item of a listing page (`ObjectInfo` as
consumed by `list_objects_map`); `last_modified` models the stringified
timestamp. -/
structure ListItem where
  key : String
  is_dir : Bool
  size_bytes : Option Int
  last_modified : Option String
  etag : Option String
deriving DecidableEq

/-- Removing a character-list prefix: `some` of the remainder when the
first list is a prefix of the second, else `none`.  (For valid UTF-8, a
byte-level prefix as tested by Rust `str::strip_prefix` is exactly a
character-level prefix.) -/
def dropPfxChars : List Char → List Char → Option (List Char)
  | [], ks => some ks
  | _ :: _, [] => none
  | p :: ps, k :: ks => if p = k then dropPfxChars ps ks else none

/-- Embeds `item.key.strip_prefix(base_prefix).unwrap_or(&item.key)`. -/
def stripPfx (basePfx key : String) : String :=
  match dropPfxChars basePfx.data key.data with
  | some rest => String.mk rest
  | none => key

/-- Embeds the relative-key normalization: strip the base prefix, then
`trim_start_matches('/')`. -/
def relKey (basePfx key : String) : String :=
  String.mk ((stripPfx basePfx key).data.dropWhile (· = '/'))

/-- Splitting a character list at `'/'` (the components of a Unix
path). -/
def splitSlash : List Char → List (List Char)
  | [] => [[]]
  | c :: cs =>
      match splitSlash cs with
      | [] => [[c]]
      | r :: rs => if c = '/' then [] :: r :: rs else (c :: r) :: rs

/-- Embeds `Path::new(&item.key).file_name()` for Unix-style S3 keys: the
last non-empty, non-`.` component, `none` when that component is `..` or
when there is none. -/
def fileName (p : String) : Option String :=
  match (((splitSlash p.data).map String.mk).filter
      fun c => c ≠ "" && c ≠ ".").getLast? with
  | some c => if c = ".." then none else some c
  | none => none

/-- Per-item step of diff.rs `list_objects_map`: directory markers are
dropped; an empty relative key falls back to the file name of the absolute
key (single-object case); otherwise insert under the relative key. -/
def diffInsertItem (basePfx : String) (m : Listing) (item : ListItem) :
    Listing :=
  if item.is_dir then m
  else
    let rk := relKey basePfx item.key
    if rk = "" then
      insertL m ((fileName item.key).getD item.key)
        ⟨item.size_bytes, item.last_modified, item.etag⟩
    else insertL m rk ⟨item.size_bytes, item.last_modified, item.etag⟩

/-- diff.rs `list_objects_map` over the flattened stream of page items. -/
def diffListMap (basePfx : String) (items : List ListItem) : Listing :=
  items.foldl (diffInsertItem basePfx) []

/-- Per-item step of mirror.rs `list_objects_map`: directory markers are
dropped; an item whose relative key is empty is skipped (`continue`);
otherwise insert under the relative key. -/
def mirrorInsertItem (basePfx : String) (m : Listing) (item : ListItem) :
    Listing :=
  if item.is_dir then m
  else
    let rk := relKey basePfx item.key
    if rk = "" then m
    else insertL m rk ⟨item.size_bytes, item.last_modified, item.etag⟩

/-- mirror.rs `list_objects_map` over the flattened stream of page
items. -/
def mirrorListMap (basePfx : String) (items : List ListItem) : Listing :=
  items.foldl (mirrorInsertItem basePfx) []

/-- A concrete operation stream for exercising the retry governor: fails
with a retryable error on invocations 1 and 2, succeeds on invocation
3. -/
def failTwiceOp : Nat → Except String Nat := fun i =>
  if i < 3 then .error "timeout" else .ok 42

/-! ### Association-list lemmas (the `HashMap` interface used by the code) -/

theorem lookupL_eq_none_iff (m : Listing) (k : String) :
    lookupL m k = none ↔ k ∉ keysOf m := by
  induction m with
  | nil => simp [lookupL, keysOf]
  | cons kv rest ih =>
      obtain ⟨k', v'⟩ := kv
      by_cases h : k' = k
      · subst h; simp [lookupL, keysOf]
      · simp [lookupL, keysOf, h, ih, Ne.symm h]

theorem lookupL_isSome_iff (m : Listing) (k : String) :
    (∃ v, lookupL m k = some v) ↔ k ∈ keysOf m := by
  rw [← Option.ne_none_iff_exists']
  exact not_iff_comm.mp (lookupL_eq_none_iff m k).symm

theorem lookupL_eq_some_mem {m : Listing} {k : String} {v : FileInfo}
    (h : lookupL m k = some v) : (k, v) ∈ m := by
  induction m with
  | nil => simp [lookupL] at h
  | cons kv rest ih =>
      obtain ⟨k', v'⟩ := kv
      by_cases hk : k' = k
      · subst hk
        simp [lookupL] at h
        subst h
        exact List.mem_cons_self _ _
      · simp only [lookupL, if_neg hk] at h
        exact List.mem_cons_of_mem _ (ih h)

theorem lookupL_of_mem_nodup {k : String} {v : FileInfo} :
    ∀ {m : Listing}, (keysOf m).Nodup → (k, v) ∈ m → lookupL m k = some v
  | [], _, h => by simp at h
  | (k', v') :: rest, hm, h => by
      simp only [keysOf, List.map_cons, List.nodup_cons] at hm
      rcases List.mem_cons.mp h with h1 | h1
      · rw [Prod.mk.injEq] at h1
        obtain ⟨rfl, rfl⟩ := h1
        simp [lookupL]
      · have hk : k ∈ keysOf rest := by
          simpa [keysOf] using List.mem_map_of_mem Prod.fst h1
        have hne : k' ≠ k := fun he => hm.1 (he ▸ hk)
        simpa [lookupL, hne] using lookupL_of_mem_nodup hm.2 h1

/-! ### Characterization of the comparator output -/

theorem entriesFromFirst_false (first second : Listing) :
    entriesFromFirst first second false =
      first.filterMap fun kv =>
        match lookupL second kv.1 with
        | some si => some (bothEntry kv.1 kv.2 si)
        | none => some (onlyFirstEntry kv.1 kv.2) := by
  unfold entriesFromFirst
  refine List.filterMap_congr fun kv _ => ?_
  cases h : lookupL second kv.1 <;> simp [h]

theorem compare_objects_internal_eq (source target : Listing) :
    compare_objects_internal source target =
      compare_objects source target false := by
  unfold compare_objects_internal compare_objects
  rw [entriesFromFirst_false]

theorem mem_compare_objects_iff {first second : Listing}
    (h1 : (keysOf first).Nodup) (h2 : (keysOf second).Nodup) (e : DiffEntry) :
    e ∈ compare_objects first second false ↔
      (∃ fi si, lookupL first e.key = some fi ∧
          lookupL second e.key = some si ∧ e = bothEntry e.key fi si) ∨
      (∃ fi, lookupL first e.key = some fi ∧
          lookupL second e.key = none ∧ e = onlyFirstEntry e.key fi) ∨
      (∃ si, lookupL first e.key = none ∧
          lookupL second e.key = some si ∧ e = onlySecondEntry e.key si) := by
  rw [compare_objects, List.mem_insertionSort, List.mem_append,
    entriesFromFirst_false]
  constructor
  · rintro (hmem | hmem)
    · rcases List.mem_filterMap.mp hmem with ⟨⟨k, fi⟩, hkv, hg⟩
      have hlf : lookupL first k = some fi := lookupL_of_mem_nodup h1 hkv
      cases hsi : lookupL second k with
      | some si =>
          simp only [hsi, Option.some.injEq] at hg
          subst hg
          exact Or.inl ⟨fi, si, by simpa [bothEntry] using hlf,
            by simpa [bothEntry] using hsi, by simp [bothEntry]⟩
      | none =>
          simp only [hsi, Option.some.injEq] at hg
          subst hg
          exact Or.inr (Or.inl ⟨fi, by simpa [onlyFirstEntry] using hlf,
            by simpa [onlyFirstEntry] using hsi, by simp [onlyFirstEntry]⟩)
    · rcases List.mem_filterMap.mp hmem with ⟨⟨k, si⟩, hkv, hg⟩
      by_cases hf : lookupL first k = none
      · rw [if_pos hf, Option.some.injEq] at hg
        subst hg
        exact Or.inr (Or.inr ⟨si, by simpa [onlySecondEntry] using hf,
          by simpa [onlySecondEntry] using lookupL_of_mem_nodup h2 hkv,
          by simp [onlySecondEntry]⟩)
      · rw [if_neg hf] at hg
        exact absurd hg (by simp)
  · rintro (⟨fi, si, hlf, hls, he⟩ | ⟨fi, hlf, hls, he⟩ | ⟨si, hlf, hls, he⟩)
    · refine Or.inl (List.mem_filterMap.mpr ⟨(e.key, fi),
        lookupL_eq_some_mem hlf, ?_⟩)
      simp only [hls]
      rw [he]
      simp [bothEntry]
    · refine Or.inl (List.mem_filterMap.mpr ⟨(e.key, fi),
        lookupL_eq_some_mem hlf, ?_⟩)
      simp only [hls]
      rw [he]
      simp [onlyFirstEntry]
    · refine Or.inr (List.mem_filterMap.mpr ⟨(e.key, si),
        lookupL_eq_some_mem hls, ?_⟩)
      rw [if_pos hlf]
      rw [he]
      simp [onlySecondEntry]

theorem map_key_filterMap_sublist {α : Type} (l : List (String × α))
    (g : String × α → Option DiffEntry)
    (hg : ∀ kv e, g kv = some e → DiffEntry.key e = kv.1) :
    ((l.filterMap g).map DiffEntry.key).Sublist (l.map Prod.fst) := by
  induction l with
  | nil => simp
  | cons kv rest ih =>
      rw [List.filterMap_cons]
      cases hkv : g kv with
      | none => exact ih.cons kv.1
      | some e =>
          rw [List.map_cons, List.map_cons, hg kv e hkv]
          exact ih.cons₂ kv.1

theorem keys_entriesFromFirst_sublist (first second : Listing) (d : Bool) :
    ((entriesFromFirst first second d).map DiffEntry.key).Sublist
      (keysOf first) := by
  refine map_key_filterMap_sublist first _ ?_
  intro kv e hkv
  cases h : lookupL second kv.1 with
  | some si =>
      simp only [h] at hkv
      split at hkv
      · rw [Option.some.injEq] at hkv
        subst hkv
        simp [bothEntry]
      · exact absurd hkv (by simp)
  | none =>
      simp only [h, Option.some.injEq] at hkv
      subst hkv
      simp [onlyFirstEntry]

theorem keys_entriesFromSecond_sublist (first second : Listing) :
    ((entriesFromSecond first second).map DiffEntry.key).Sublist
      (keysOf second) := by
  refine map_key_filterMap_sublist second _ ?_
  intro kv e hkv
  by_cases hf : lookupL first kv.1 = none
  · rw [if_pos hf, Option.some.injEq] at hkv
    subst hkv
    simp [onlySecondEntry]
  · rw [if_neg hf] at hkv
    exact absurd hkv (by simp)

theorem keys_entriesFromSecond_not_first (first second : Listing) :
    ∀ x ∈ (entriesFromSecond first second).map DiffEntry.key,
      x ∉ keysOf first := by
  intro x hx
  rcases List.mem_map.mp hx with ⟨e, he, rfl⟩
  rcases List.mem_filterMap.mp he with ⟨⟨k, si⟩, _, hg⟩
  by_cases hf : lookupL first k = none
  · rw [if_pos hf, Option.some.injEq] at hg
    subst hg
    simpa [onlySecondEntry] using (lookupL_eq_none_iff first k).mp hf
  · rw [if_neg hf] at hg
    exact absurd hg (by simp)

theorem compare_objects_keys_nodup {first second : Listing}
    (h1 : (keysOf first).Nodup) (h2 : (keysOf second).Nodup) :
    ((compare_objects first second false).map DiffEntry.key).Nodup := by
  have hperm : List.Perm (compare_objects first second false)
      (entriesFromFirst first second false ++ entriesFromSecond first second) :=
    List.perm_insertionSort keyLe _
  refine ((hperm.map DiffEntry.key).nodup_iff).mpr ?_
  rw [List.map_append, List.nodup_append]
  refine ⟨(keys_entriesFromFirst_sublist first second false).nodup h1,
    (keys_entriesFromSecond_sublist first second).nodup h2, ?_⟩
  intro x hx1 hx2
  exact keys_entriesFromSecond_not_first first second x hx2
    ((keys_entriesFromFirst_sublist first second false).mem hx1)

theorem compare_objects_sorted_strict {first second : Listing}
    (h1 : (keysOf first).Nodup) (h2 : (keysOf second).Nodup) :
    List.Pairwise (fun a b : DiffEntry => a.key < b.key)
      (compare_objects first second false) := by
  have hs : List.Pairwise keyLe (compare_objects first second false) :=
    List.sorted_insertionSort keyLe _
  have hn : List.Pairwise (fun a b : DiffEntry => a.key ≠ b.key)
      (compare_objects first second false) :=
    List.pairwise_map.mp (compare_objects_keys_nodup h1 h2)
  exact (hs.and hn).imp fun h => lt_of_le_of_ne h.1 h.2

theorem compare_objects_key_cover {first second : Listing}
    (h1 : (keysOf first).Nodup) (h2 : (keysOf second).Nodup) (k : String) :
    (k ∈ keysOf first ∨ k ∈ keysOf second) ↔
      ∃ e ∈ compare_objects first second false, e.key = k := by
  constructor
  · intro hk
    rcases hk with hk | hk
    · obtain ⟨fi, hfi⟩ := (lookupL_isSome_iff first k).mpr hk
      cases hsi : lookupL second k with
      | some si =>
          exact ⟨bothEntry k fi si, (mem_compare_objects_iff h1 h2 _).mpr
            (Or.inl ⟨fi, si, by simpa [bothEntry] using hfi,
              by simpa [bothEntry] using hsi, by simp [bothEntry]⟩),
            by simp [bothEntry]⟩
      | none =>
          exact ⟨onlyFirstEntry k fi, (mem_compare_objects_iff h1 h2 _).mpr
            (Or.inr (Or.inl ⟨fi, by simpa [onlyFirstEntry] using hfi,
              by simpa [onlyFirstEntry] using hsi, by simp [onlyFirstEntry]⟩)),
            by simp [onlyFirstEntry]⟩
    · obtain ⟨si, hsi⟩ := (lookupL_isSome_iff second k).mpr hk
      cases hfi : lookupL first k with
      | some fi =>
          exact ⟨bothEntry k fi si, (mem_compare_objects_iff h1 h2 _).mpr
            (Or.inl ⟨fi, si, by simpa [bothEntry] using hfi,
              by simpa [bothEntry] using hsi, by simp [bothEntry]⟩),
            by simp [bothEntry]⟩
      | none =>
          exact ⟨onlySecondEntry k si, (mem_compare_objects_iff h1 h2 _).mpr
            (Or.inr (Or.inr ⟨si, by simpa [onlySecondEntry] using hfi,
              by simpa [onlySecondEntry] using hsi,
              by simp [onlySecondEntry]⟩)),
            by simp [onlySecondEntry]⟩
  · rintro ⟨e, he, rfl⟩
    rcases (mem_compare_objects_iff h1 h2 e).mp he with
      ⟨fi, _, hlf, _, _⟩ | ⟨fi, hlf, _, _⟩ | ⟨si, _, hls, _⟩
    · exact Or.inl ((lookupL_isSome_iff first e.key).mp ⟨fi, hlf⟩)
    · exact Or.inl ((lookupL_isSome_iff first e.key).mp ⟨fi, hlf⟩)
    · exact Or.inr ((lookupL_isSome_iff second e.key).mp ⟨si, hls⟩)

/-- C1: for every pair of listings with duplicate-free key sets, the
comparison — diff.rs `compare_objects` with `diff_only = false` and
mirror.rs `compare_objects_internal` — returns a list with exactly one
entry per key of `keys(first) ∪ keys(second)` (no key omitted or
duplicated), each entry bearing exactly one of the four statuses, and the
list is sorted strictly ascending by key. -/
theorem compare_objects_partition_sorted (first second : Listing)
    (h1 : (keysOf first).Nodup) (h2 : (keysOf second).Nodup) :
    (∀ k : String, (k ∈ keysOf first ∨ k ∈ keysOf second) ↔
        ∃ e ∈ compare_objects first second false, e.key = k) ∧
    ((compare_objects first second false).map DiffEntry.key).Nodup ∧
    List.Pairwise (fun a b : DiffEntry => a.key < b.key)
      (compare_objects first second false) ∧
    (∀ e ∈ compare_objects first second false,
        e.status = .Same ∨ e.status = .Different ∨
          e.status = .OnlyFirst ∨ e.status = .OnlySecond) ∧
    compare_objects_internal first second =
      compare_objects first second false :=
  ⟨fun k => compare_objects_key_cover h1 h2 k,
    compare_objects_keys_nodup h1 h2,
    compare_objects_sorted_strict h1 h2,
    fun e _ => by cases h : e.status <;> simp [h],
    compare_objects_internal_eq first second⟩

/-- Witness for `compare_objects_partition_sorted` at a concrete input. -/
theorem compare_objects_partition_sorted_witness :
    ∃ e ∈ compare_objects [("a.txt", ⟨some 100, none, some "x"⟩)] [] false,
      e.key = "a.txt" :=
  ((compare_objects_partition_sorted
      [("a.txt", ⟨some 100, none, some "x"⟩)] []
      (by decide) (by decide)).1 "a.txt").mp (Or.inl (by decide))

/-! ### The equality rule -/

theorem is_same_iff (fi si : FileInfo) :
    is_same fi si = true ↔
      fi.size = si.size ∧ (fi.etag = si.etag ∨ fi.etag = none) := by
  simp [is_same, Option.isNone_iff_eq_none]

theorem bothEntry_status_Same_iff (k : String) (fi si : FileInfo) :
    (bothEntry k fi si).status = .Same ↔ is_same fi si = true := by
  by_cases h : is_same fi si <;> simp [bothEntry, h]

/-- C2: for every key present in both listings, the comparison classifies
it `Same` iff the sizes are equal and (the etags are equal or the first
listing's etag is `none`); equal sizes with the first's etag `none` force
`Same` regardless of the second's etag; and the modification time never
enters the verdict. -/
theorem compare_objects_same_rule {first second : Listing}
    (h1 : (keysOf first).Nodup) (h2 : (keysOf second).Nodup)
    {k : String} {fi si : FileInfo}
    (hf : lookupL first k = some fi) (hs : lookupL second k = some si) :
    (bothEntry k fi si ∈ compare_objects first second false ∧
      bothEntry k fi si ∈ compare_objects_internal first second) ∧
    (∀ e ∈ compare_objects first second false, e.key = k →
        (e.status = .Same ↔
          fi.size = si.size ∧ (fi.etag = si.etag ∨ fi.etag = none))) ∧
    (fi.size = si.size → fi.etag = none →
      ∀ e ∈ compare_objects first second false, e.key = k →
        e.status = .Same) ∧
    (∀ m1 m2 : Option String,
      is_same { fi with modified := m1 } { si with modified := m2 } =
        is_same fi si) := by
  have hmem : bothEntry k fi si ∈ compare_objects first second false :=
    (mem_compare_objects_iff h1 h2 _).mpr
      (Or.inl ⟨fi, si, by simpa [bothEntry] using hf,
        by simpa [bothEntry] using hs, by simp [bothEntry]⟩)
  have hstat : ∀ e ∈ compare_objects first second false, e.key = k →
      (e.status = .Same ↔
        fi.size = si.size ∧ (fi.etag = si.etag ∨ fi.etag = none)) := by
    intro e he hk
    subst hk
    rcases (mem_compare_objects_iff h1 h2 e).mp he with
      ⟨fi', si', hlf, hls, heq⟩ | ⟨fi', hlf, hls, heq⟩ | ⟨si', hlf, hls, heq⟩
    · rw [hf] at hlf
      rw [hs] at hls
      obtain rfl : fi' = fi := by injection hlf.symm
      obtain rfl : si' = si := by injection hls.symm
      rw [heq, bothEntry_status_Same_iff, is_same_iff]
    · rw [hs] at hls
      exact absurd hls (by simp)
    · rw [hf] at hlf
      exact absurd hlf (by simp)
  refine ⟨⟨hmem, ?_⟩, hstat, ?_, fun m1 m2 => rfl⟩
  · rw [compare_objects_internal_eq]
    exact hmem
  · intro hsz het e he hk
    exact (hstat e he hk).mpr ⟨hsz, Or.inr het⟩

/-- Witness for `compare_objects_same_rule` at a concrete input. -/
theorem compare_objects_same_rule_witness :
    bothEntry "a.txt" ⟨some 100, none, none⟩ ⟨some 100, none, some "y"⟩ ∈
      compare_objects [("a.txt", ⟨some 100, none, none⟩)]
        [("a.txt", ⟨some 100, none, some "y"⟩)] false :=
  ((compare_objects_same_rule (by decide) (by decide)
      (by decide) (by decide)).1).1

/-- C3 counterexample: the `Same`/`Different` verdict for a shared key is
not symmetric under swapping the two listings.  With equal sizes,
`first.etag = none`, `second.etag = some "x"`, the comparison yields
`Same` in one order and `Different` in the other. -/
theorem compare_objects_swap_counterexample :
    (compare_objects [("k", ⟨some 1, none, none⟩)]
        [("k", ⟨some 1, none, some "x"⟩)] false).map DiffEntry.status =
      [DiffStatus.Same] ∧
    (compare_objects [("k", ⟨some 1, none, some "x"⟩)]
        [("k", ⟨some 1, none, none⟩)] false).map DiffEntry.status =
      [DiffStatus.Different] := by decide

theorem exists_OnlyFirst_iff {first second : Listing}
    (h1 : (keysOf first).Nodup) (h2 : (keysOf second).Nodup) (k : String) :
    (∃ e ∈ compare_objects first second false,
        e.key = k ∧ e.status = .OnlyFirst) ↔
      ((∃ fi, lookupL first k = some fi) ∧ lookupL second k = none) := by
  constructor
  · rintro ⟨e, he, rfl, hst⟩
    rcases (mem_compare_objects_iff h1 h2 e).mp he with
      ⟨fi, si, hlf, hls, heq⟩ | ⟨fi, hlf, hls, heq⟩ | ⟨si, hlf, hls, heq⟩
    · rw [heq] at hst
      by_cases h : is_same fi si <;> simp [bothEntry, h] at hst
    · exact ⟨⟨fi, hlf⟩, hls⟩
    · rw [heq] at hst
      simp [onlySecondEntry] at hst
  · rintro ⟨⟨fi, hlf⟩, hls⟩
    exact ⟨onlyFirstEntry k fi, (mem_compare_objects_iff h1 h2 _).mpr
      (Or.inr (Or.inl ⟨fi, by simpa [onlyFirstEntry] using hlf,
        by simpa [onlyFirstEntry] using hls, by simp [onlyFirstEntry]⟩)),
      by simp [onlyFirstEntry], rfl⟩

theorem exists_OnlySecond_iff {first second : Listing}
    (h1 : (keysOf first).Nodup) (h2 : (keysOf second).Nodup) (k : String) :
    (∃ e ∈ compare_objects first second false,
        e.key = k ∧ e.status = .OnlySecond) ↔
      (lookupL first k = none ∧ ∃ si, lookupL second k = some si) := by
  constructor
  · rintro ⟨e, he, rfl, hst⟩
    rcases (mem_compare_objects_iff h1 h2 e).mp he with
      ⟨fi, si, hlf, hls, heq⟩ | ⟨fi, hlf, hls, heq⟩ | ⟨si, hlf, hls, heq⟩
    · rw [heq] at hst
      by_cases h : is_same fi si <;> simp [bothEntry, h] at hst
    · rw [heq] at hst
      simp [onlyFirstEntry] at hst
    · exact ⟨hlf, ⟨si, hls⟩⟩
  · rintro ⟨hlf, ⟨si, hls⟩⟩
    exact ⟨onlySecondEntry k si, (mem_compare_objects_iff h1 h2 _).mpr
      (Or.inr (Or.inr ⟨si, by simpa [onlySecondEntry] using hlf,
        by simpa [onlySecondEntry] using hls, by simp [onlySecondEntry]⟩)),
      by simp [onlySecondEntry], rfl⟩

theorem is_same_comm_of_avail {fi si : FileInfo}
    (h : fi.etag = none ↔ si.etag = none) :
    is_same fi si = is_same si fi := by
  have h12 : is_same fi si = true ↔ is_same si fi = true := by
    rw [is_same_iff, is_same_iff]
    constructor
    · rintro ⟨hsz, het | het⟩
      · exact ⟨hsz.symm, Or.inl het.symm⟩
      · exact ⟨hsz.symm, Or.inr (h.mp het)⟩
    · rintro ⟨hsz, het | het⟩
      · exact ⟨hsz.symm, Or.inl het.symm⟩
      · exact ⟨hsz.symm, Or.inr (h.mpr het)⟩
  cases hb : is_same si fi
  · cases hb2 : is_same fi si
    · rfl
    · exact absurd (h12.mp hb2) (by simp [hb])
  · exact h12.mpr hb

/-- C3 amended: `compare(A,B)` assigns `k` status `OnlyFirst` iff
`compare(B,A)` assigns it `OnlySecond` (and vice versa); the
`Same`/`Different` verdict for a shared key is order-independent provided
the two etags' availability matches (both present or both `none`) — the
equality rule is not commutative when exactly one etag is `none`. -/
theorem compare_objects_swap_symmetry (first second : Listing)
    (h1 : (keysOf first).Nodup) (h2 : (keysOf second).Nodup) :
    (∀ k, (∃ e ∈ compare_objects first second false,
        e.key = k ∧ e.status = .OnlyFirst) ↔
      (∃ e ∈ compare_objects second first false,
        e.key = k ∧ e.status = .OnlySecond)) ∧
    (∀ k, (∃ e ∈ compare_objects first second false,
        e.key = k ∧ e.status = .OnlySecond) ↔
      (∃ e ∈ compare_objects second first false,
        e.key = k ∧ e.status = .OnlyFirst)) ∧
    (∀ fi si : FileInfo, (fi.etag = none ↔ si.etag = none) →
      is_same fi si = is_same si fi) := by
  refine ⟨fun k => ?_, fun k => ?_, fun fi si h => is_same_comm_of_avail h⟩
  · rw [exists_OnlyFirst_iff h1 h2 k, exists_OnlySecond_iff h2 h1 k]
    exact and_comm
  · rw [exists_OnlySecond_iff h1 h2 k, exists_OnlyFirst_iff h2 h1 k]
    exact and_comm

/-- Witness for `compare_objects_swap_symmetry` at a concrete input. -/
theorem compare_objects_swap_symmetry_witness :
    ∃ e ∈ compare_objects [] [("a", ⟨some 1, none, some "x"⟩)] false,
      e.key = "a" ∧ e.status = .OnlySecond :=
  ((compare_objects_swap_symmetry [("a", ⟨some 1, none, some "x"⟩)] []
      (by decide) (by decide)).1 "a").mp
    ⟨onlyFirstEntry "a" ⟨some 1, none, some "x"⟩, by decide, by decide,
      by decide⟩

/-! ### Planner lemmas -/

theorem planEntries_toCopy (source : Listing) (overwrite remove : Bool)
    (entries : List DiffEntry) :
    (planEntries source overwrite remove entries).toCopy =
      (entries.filter fun e =>
        (e.status == .OnlyFirst || (e.status == .Different && overwrite)) &&
          (lookupL source e.key).isSome).map DiffEntry.key := by
  induction entries with
  | nil => rfl
  | cons e rest ih =>
      cases hst : e.status with
      | OnlyFirst =>
          by_cases hl : (lookupL source e.key).isSome <;>
            simp [planEntries, hst, hl, ih, List.filter_cons]
      | Different =>
          cases overwrite with
          | true =>
              by_cases hl : (lookupL source e.key).isSome <;>
                simp [planEntries, hst, hl, ih, List.filter_cons]
          | false => simp [planEntries, hst, ih, List.filter_cons]
      | OnlySecond =>
          cases remove with
          | true => simp [planEntries, hst, ih, List.filter_cons]
          | false => simp [planEntries, hst, ih, List.filter_cons]
      | Same => simp [planEntries, hst, ih, List.filter_cons]

theorem planEntries_toRemove (source : Listing) (overwrite remove : Bool)
    (entries : List DiffEntry) :
    (planEntries source overwrite remove entries).toRemove =
      (entries.filter fun e => e.status == .OnlySecond && remove).map
        DiffEntry.key := by
  induction entries with
  | nil => rfl
  | cons e rest ih =>
      cases hst : e.status with
      | OnlyFirst =>
          by_cases hl : (lookupL source e.key).isSome <;>
            simp [planEntries, hst, hl, ih, List.filter_cons]
      | Different =>
          cases overwrite with
          | true =>
              by_cases hl : (lookupL source e.key).isSome <;>
                simp [planEntries, hst, hl, ih, List.filter_cons]
          | false => simp [planEntries, hst, ih, List.filter_cons]
      | OnlySecond =>
          cases remove with
          | true => simp [planEntries, hst, ih, List.filter_cons]
          | false => simp [planEntries, hst, ih, List.filter_cons]
      | Same => simp [planEntries, hst, ih, List.filter_cons]

theorem planEntries_skipped (source : Listing) (overwrite remove : Bool)
    (entries : List DiffEntry) :
    (planEntries source overwrite remove entries).skipped =
      (entries.filter fun e =>
        e.status == .Same || (e.status == .Different && !overwrite)).length := by
  induction entries with
  | nil => rfl
  | cons e rest ih =>
      cases hst : e.status with
      | OnlyFirst =>
          by_cases hl : (lookupL source e.key).isSome <;>
            simp [planEntries, hst, hl, ih, List.filter_cons]
      | Different =>
          cases overwrite with
          | true =>
              by_cases hl : (lookupL source e.key).isSome <;>
                simp [planEntries, hst, hl, ih, List.filter_cons]
          | false => simp [planEntries, hst, ih, List.filter_cons]
      | OnlySecond =>
          cases remove with
          | true => simp [planEntries, hst, ih, List.filter_cons]
          | false => simp [planEntries, hst, ih, List.filter_cons]
      | Same => simp [planEntries, hst, ih, List.filter_cons]

theorem planEntries_toCopy_of_src {source : Listing}
    {entries : List DiffEntry} (overwrite remove : Bool)
    (hsrc : ∀ e ∈ entries, (e.status = .OnlyFirst ∨ e.status = .Different) →
        (lookupL source e.key).isSome) :
    (planEntries source overwrite remove entries).toCopy =
      (entries.filter fun e =>
        e.status == .OnlyFirst || (e.status == .Different && overwrite)).map
          DiffEntry.key := by
  refine (planEntries_toCopy source overwrite remove entries).trans
    (congrArg (List.map DiffEntry.key) (List.filter_congr ?_))
  intro e he
  cases hst : e.status with
  | OnlyFirst => simp [hst, hsrc e he (Or.inl hst)]
  | Different =>
      cases overwrite with
      | true => simp [hst, hsrc e he (Or.inr hst)]
      | false => simp [hst]
  | OnlySecond => simp [hst]
  | Same => simp [hst]

/-- C4: the mirror planning loop follows the decision table — `OnlyFirst`
entries go to `to_copy`; `Different` entries go to `to_copy` iff
`overwrite`, else each increments `skipped` by one; `OnlySecond` entries
go to `to_delete` iff `delete_extraneous` (`remove`), else to neither
list; `Same` entries are skipped; and `to_copy`/`to_delete` preserve the
sorted order of the input entries. -/
theorem plan_follows_decision_table (source : Listing)
    (entries : List DiffEntry) (overwrite remove : Bool)
    (hsrc : ∀ e ∈ entries, (e.status = .OnlyFirst ∨ e.status = .Different) →
        (lookupL source e.key).isSome) :
    (planEntries source overwrite remove entries).toCopy =
      (entries.filter fun e =>
        e.status == .OnlyFirst || (e.status == .Different && overwrite)).map
          DiffEntry.key ∧
    (planEntries source overwrite remove entries).toRemove =
      (entries.filter fun e => e.status == .OnlySecond && remove).map
        DiffEntry.key ∧
    (planEntries source overwrite remove entries).skipped =
      (entries.filter fun e =>
        e.status == .Same || (e.status == .Different && !overwrite)).length ∧
    (List.Pairwise (fun a b : DiffEntry => a.key < b.key) entries →
      List.Pairwise (· < ·)
        (planEntries source overwrite remove entries).toCopy ∧
      List.Pairwise (· < ·)
        (planEntries source overwrite remove entries).toRemove) := by
  refine ⟨planEntries_toCopy_of_src overwrite remove hsrc,
    planEntries_toRemove source overwrite remove entries,
    planEntries_skipped source overwrite remove entries, fun hpw => ⟨?_, ?_⟩⟩
  · rw [planEntries_toCopy_of_src overwrite remove hsrc]
    exact List.pairwise_map.mpr (hpw.filter _)
  · rw [planEntries_toRemove source overwrite remove entries]
    exact List.pairwise_map.mpr (hpw.filter _)

/-- Witness for `plan_follows_decision_table`: a `Different` entry with
`overwrite = false` lands in neither list and increments `skipped`. -/
theorem plan_follows_decision_table_witness :
    (planEntries [("a", ⟨some 1, none, some "x"⟩)] false false
        [bothEntry "a" ⟨some 1, none, some "x"⟩
          ⟨some 2, none, some "y"⟩]).toCopy = [] ∧
    (planEntries [("a", ⟨some 1, none, some "x"⟩)] false false
        [bothEntry "a" ⟨some 1, none, some "x"⟩
          ⟨some 2, none, some "y"⟩]).toRemove = [] ∧
    (planEntries [("a", ⟨some 1, none, some "x"⟩)] false false
        [bothEntry "a" ⟨some 1, none, some "x"⟩
          ⟨some 2, none, some "y"⟩]).skipped = 1 := by
  have h := plan_follows_decision_table [("a", ⟨some 1, none, some "x"⟩)]
    [bothEntry "a" ⟨some 1, none, some "x"⟩ ⟨some 2, none, some "y"⟩]
    false false (by decide)
  exact ⟨h.1.trans (by decide), h.2.1.trans (by decide),
    h.2.2.1.trans (by decide)⟩

/-! ### Executor lemmas -/

theorem execCopies_succ_add_errs (beh : StoreOp → Nat → Bool)
    (ks : List String) :
    (execCopies beh ks).succ + (execCopies beh ks).errs = ks.length := by
  induction ks with
  | nil => rfl
  | cons k ks ih =>
      by_cases hg : beh (.get k) 0
      · by_cases hp : beh (.put k) 0 <;> simp [execCopies, hg, hp] <;> omega
      · simp [execCopies, hg]
        omega

theorem execCopies_succ (beh : StoreOp → Nat → Bool) (ks : List String) :
    (execCopies beh ks).succ =
      (ks.filter fun k => beh (.get k) 0 && beh (.put k) 0).length := by
  induction ks with
  | nil => rfl
  | cons k ks ih =>
      by_cases hg : beh (.get k) 0
      · by_cases hp : beh (.put k) 0 <;>
          simp [execCopies, hg, hp, ih, List.filter_cons]
      · simp [execCopies, hg, ih, List.filter_cons]

theorem execCopies_calls (beh : StoreOp → Nat → Bool) (ks : List String) :
    (execCopies beh ks).calls = ks.flatMap fun k =>
      if beh (.get k) 0 then [(StoreOp.get k, 0), (StoreOp.put k, 0)]
      else [(StoreOp.get k, 0)] := by
  induction ks with
  | nil => rfl
  | cons k ks ih =>
      by_cases hg : beh (.get k) 0
      · by_cases hp : beh (.put k) 0 <;>
          simp [execCopies, hg, hp, ih, List.flatMap_cons]
      · simp [execCopies, hg, ih, List.flatMap_cons]

theorem execCopies_errs_eq_failed (beh : StoreOp → Nat → Bool)
    (ks : List String) :
    (execCopies beh ks).errs =
      ((execCopies beh ks).calls.filter fun c => !beh c.1 c.2).length := by
  induction ks with
  | nil => rfl
  | cons k ks ih =>
      by_cases hg : beh (.get k) 0
      · by_cases hp : beh (.put k) 0 <;>
          simp [execCopies, hg, hp, ih, List.filter_cons]
      · simp [execCopies, hg, ih, List.filter_cons]

theorem execCopies_attempt_zero (beh : StoreOp → Nat → Bool)
    (ks : List String) :
    ∀ c ∈ (execCopies beh ks).calls, c.2 = 0 := by
  intro c hc
  rw [execCopies_calls] at hc
  rcases List.mem_flatMap.mp hc with ⟨k, _, hk⟩
  by_cases hg : beh (.get k) 0 <;> simp [hg] at hk <;>
    rcases hk with rfl | rfl <;> rfl

theorem execCopies_ops_shape (beh : StoreOp → Nat → Bool)
    (ks : List String) :
    ∀ c ∈ (execCopies beh ks).calls,
      ∃ k ∈ ks, c.1 = StoreOp.get k ∨ c.1 = StoreOp.put k := by
  intro c hc
  rw [execCopies_calls] at hc
  rcases List.mem_flatMap.mp hc with ⟨k, hks, hk⟩
  by_cases hg : beh (.get k) 0 <;> simp [hg] at hk <;>
    first
      | (rcases hk with rfl | rfl
         · exact ⟨k, hks, Or.inl rfl⟩
         · exact ⟨k, hks, Or.inr rfl⟩)
      | (obtain rfl := hk
         exact ⟨k, hks, Or.inl rfl⟩)

theorem execCopies_get_mem (beh : StoreOp → Nat → Bool) (ks : List String)
    (k : String) :
    (StoreOp.get k, 0) ∈ (execCopies beh ks).calls ↔ k ∈ ks := by
  rw [execCopies_calls]
  rw [List.mem_flatMap]
  constructor
  · rintro ⟨a, ha, hk⟩
    by_cases hg : beh (.get a) 0 <;> simp [hg] at hk <;> exact hk ▸ ha
  · intro hk
    refine ⟨k, hk, ?_⟩
    by_cases hg : beh (.get k) 0 <;> simp [hg]

theorem execDeletes_succ_add_errs (beh : StoreOp → Nat → Bool)
    (ks : List String) :
    (execDeletes beh ks).succ + (execDeletes beh ks).errs = ks.length := by
  induction ks with
  | nil => rfl
  | cons k ks ih =>
      by_cases hd : beh (.del k) 0 <;> simp [execDeletes, hd] <;> omega

theorem execDeletes_succ (beh : StoreOp → Nat → Bool) (ks : List String) :
    (execDeletes beh ks).succ =
      (ks.filter fun k => beh (.del k) 0).length := by
  induction ks with
  | nil => rfl
  | cons k ks ih =>
      by_cases hd : beh (.del k) 0 <;>
        simp [execDeletes, hd, ih, List.filter_cons]

theorem execDeletes_calls (beh : StoreOp → Nat → Bool) (ks : List String) :
    (execDeletes beh ks).calls = ks.map fun k => (StoreOp.del k, 0) := by
  induction ks with
  | nil => rfl
  | cons k ks ih =>
      by_cases hd : beh (.del k) 0 <;> simp [execDeletes, hd, ih]

theorem execDeletes_errs_eq_failed (beh : StoreOp → Nat → Bool)
    (ks : List String) :
    (execDeletes beh ks).errs =
      ((execDeletes beh ks).calls.filter fun c => !beh c.1 c.2).length := by
  induction ks with
  | nil => rfl
  | cons k ks ih =>
      by_cases hd : beh (.del k) 0 <;>
        simp [execDeletes, hd, ih, List.filter_cons]

theorem execDeletes_attempt_zero (beh : StoreOp → Nat → Bool)
    (ks : List String) :
    ∀ c ∈ (execDeletes beh ks).calls, c.2 = 0 := by
  intro c hc
  rw [execDeletes_calls] at hc
  rcases List.mem_map.mp hc with ⟨k, _, rfl⟩
  rfl

theorem execDeletes_ops_shape (beh : StoreOp → Nat → Bool)
    (ks : List String) :
    ∀ c ∈ (execDeletes beh ks).calls, ∃ k ∈ ks, c.1 = StoreOp.del k := by
  intro c hc
  rw [execDeletes_calls] at hc
  rcases List.mem_map.mp hc with ⟨k, hk, rfl⟩
  exact ⟨k, hk, rfl⟩

theorem execDeletes_del_mem (beh : StoreOp → Nat → Bool) (ks : List String)
    (k : String) :
    (StoreOp.del k, 0) ∈ (execDeletes beh ks).calls ↔ k ∈ ks := by
  rw [execDeletes_calls]
  simp

theorem execCopies_ops_nodup (beh : StoreOp → Nat → Bool) {ks : List String}
    (h : ks.Nodup) : ((execCopies beh ks).calls.map Prod.fst).Nodup := by
  rw [execCopies_calls, List.map_flatMap, List.nodup_flatMap]
  constructor
  · intro k _
    by_cases hg : beh (.get k) 0 <;> simp [hg]
  · refine h.imp ?_
    intro a b hab
    intro x hxa hxb
    have ha : x = StoreOp.get a ∨ x = StoreOp.put a := by
      by_cases hga : beh (.get a) 0 <;> simp [hga] at hxa <;> tauto
    have hb : x = StoreOp.get b ∨ x = StoreOp.put b := by
      by_cases hgb : beh (.get b) 0 <;> simp [hgb] at hxb <;> tauto
    rcases ha with rfl | rfl <;> rcases hb with hb | hb <;> simp_all

theorem execDeletes_ops_nodup (beh : StoreOp → Nat → Bool) {ks : List String}
    (h : ks.Nodup) : ((execDeletes beh ks).calls.map Prod.fst).Nodup := by
  rw [execDeletes_calls]
  rw [List.map_map]
  refine h.map ?_
  intro a b hab
  simpa using hab

theorem mirrorRun_false_eq (source target : Listing)
    (overwrite remove : Bool) (beh : StoreOp → Nat → Bool) :
    mirrorRun source target overwrite remove false beh =
      (⟨(execCopies beh (mirrorPlan source target overwrite remove).toCopy).succ,
        (if remove then
            execDeletes beh (mirrorPlan source target overwrite remove).toRemove
          else ⟨0, 0, []⟩).succ,
        (mirrorPlan source target overwrite remove).skipped,
        (execCopies beh
            (mirrorPlan source target overwrite remove).toCopy).errs +
          (if remove then
              execDeletes beh
                (mirrorPlan source target overwrite remove).toRemove
            else ⟨0, 0, []⟩).errs, false⟩,
      (execCopies beh
          (mirrorPlan source target overwrite remove).toCopy).calls ++
        (if remove then
            execDeletes beh (mirrorPlan source target overwrite remove).toRemove
          else ⟨0, 0, []⟩).calls) := rfl

theorem mirrorRun_true_eq (source target : Listing)
    (overwrite remove : Bool) (beh : StoreOp → Nat → Bool) :
    mirrorRun source target overwrite remove true beh =
      (⟨(mirrorPlan source target overwrite remove).toCopy.length,
        (mirrorPlan source target overwrite remove).toRemove.length,
        (mirrorPlan source target overwrite remove).skipped, 0, true⟩,
      []) := rfl

theorem mirrorPlan_toRemove_nil (source target : Listing)
    (overwrite : Bool) :
    (mirrorPlan source target overwrite false).toRemove = [] := by
  rw [mirrorPlan, planEntries_toRemove]
  simp

theorem mirrorPlan_toCopy_nodup {source target : Listing}
    (h1 : (keysOf source).Nodup) (h2 : (keysOf target).Nodup)
    (overwrite remove : Bool) :
    (mirrorPlan source target overwrite remove).toCopy.Nodup := by
  rw [mirrorPlan, planEntries_toCopy]
  have hk : ((compare_objects_internal source target).map
      DiffEntry.key).Nodup := by
    rw [compare_objects_internal_eq]
    exact compare_objects_keys_nodup h1 h2
  exact ((List.filter_sublist _).map DiffEntry.key).nodup hk

theorem mirrorPlan_toRemove_nodup {source target : Listing}
    (h1 : (keysOf source).Nodup) (h2 : (keysOf target).Nodup)
    (overwrite remove : Bool) :
    (mirrorPlan source target overwrite remove).toRemove.Nodup := by
  rw [mirrorPlan, planEntries_toRemove]
  have hk : ((compare_objects_internal source target).map
      DiffEntry.key).Nodup := by
    rw [compare_objects_internal_eq]
    exact compare_objects_keys_nodup h1 h2
  exact ((List.filter_sublist _).map DiffEntry.key).nodup hk

/-- C6: the executor attempts every `to_copy` action before any
`to_delete` action — the call trace is the copy-phase calls (gets/puts)
followed by the delete-phase calls (deletes); a failing call only
increments `errors` (the loops never abort); `copied`/`removed` count
exactly the confirmed successes; `skipped` is carried unchanged from the
plan; and after execution
`copied + removed + skipped + errors = len(to_copy) + len(to_delete) +
plan.skipped`. -/
theorem mirror_executor_invariants (source target : Listing)
    (overwrite remove : Bool) (beh : StoreOp → Nat → Bool) :
    (mirrorRun source target overwrite remove false beh).1.copied +
        (mirrorRun source target overwrite remove false beh).1.removed +
        (mirrorRun source target overwrite remove false beh).1.skipped +
        (mirrorRun source target overwrite remove false beh).1.errors =
      (mirrorPlan source target overwrite remove).toCopy.length +
        (mirrorPlan source target overwrite remove).toRemove.length +
        (mirrorPlan source target overwrite remove).skipped ∧
    (mirrorRun source target overwrite remove false beh).1.skipped =
      (mirrorPlan source target overwrite remove).skipped ∧
    (mirrorRun source target overwrite remove false beh).1.copied =
      ((mirrorPlan source target overwrite remove).toCopy.filter fun k =>
        beh (.get k) 0 && beh (.put k) 0).length ∧
    (mirrorRun source target overwrite remove false beh).1.removed =
      (if remove then
        ((mirrorPlan source target overwrite remove).toRemove.filter fun k =>
          beh (.del k) 0).length
      else 0) ∧
    (mirrorRun source target overwrite remove false beh).2 =
      (execCopies beh
          (mirrorPlan source target overwrite remove).toCopy).calls ++
        (if remove then
          (execDeletes beh
            (mirrorPlan source target overwrite remove).toRemove).calls
        else []) ∧
    (∀ c ∈ (execCopies beh
        (mirrorPlan source target overwrite remove).toCopy).calls,
      ∃ k, c.1 = StoreOp.get k ∨ c.1 = StoreOp.put k) ∧
    (∀ c ∈ (if remove then
        (execDeletes beh
          (mirrorPlan source target overwrite remove).toRemove).calls
      else []), ∃ k, c.1 = StoreOp.del k) ∧
    (∀ k ∈ (mirrorPlan source target overwrite remove).toCopy,
      (StoreOp.get k, 0) ∈
        (mirrorRun source target overwrite remove false beh).2) := by
  rw [mirrorRun_false_eq]
  have hc := execCopies_succ_add_errs beh
    (mirrorPlan source target overwrite remove).toCopy
  refine ⟨?_, rfl, execCopies_succ beh _, ?_, ?_, ?_, ?_, ?_⟩
  · cases remove with
    | false =>
        rw [mirrorPlan_toRemove_nil source target overwrite]
        simp only [if_neg (by simp : ¬ (false = true))]
        simp only [List.length_nil]
        omega
    | true =>
        have hd := execDeletes_succ_add_errs beh
          (mirrorPlan source target overwrite true).toRemove
        simp only [eq_self_iff_true, if_true]
        omega
  · cases remove with
    | false => rfl
    | true => simp only [eq_self_iff_true, if_true]; exact execDeletes_succ beh _
  · cases remove with
    | false => rfl
    | true => rfl
  · intro c hc
    obtain ⟨k, _, hk⟩ := execCopies_ops_shape beh _ c hc
    exact ⟨k, hk⟩
  · cases remove with
    | false => simp
    | true =>
        simp only [eq_self_iff_true, if_true]
        intro c hc
        obtain ⟨k, _, hk⟩ := execDeletes_ops_shape beh _ c hc
        exact ⟨k, hk⟩
  · intro k hk
    exact List.mem_append_left _ ((execCopies_get_mem beh _ k).mpr hk)

theorem get_not_mem_execDeletes (beh : StoreOp → Nat → Bool)
    (ks : List String) (k : String) :
    (StoreOp.get k, 0) ∉ (execDeletes beh ks).calls := by
  rw [execDeletes_calls]
  simp

theorem del_not_mem_execCopies (beh : StoreOp → Nat → Bool)
    (ks : List String) (k : String) :
    (StoreOp.del k, 0) ∉ (execCopies beh ks).calls := by
  intro h
  obtain ⟨a, _, ha⟩ := execCopies_ops_shape beh ks _ h
  simp at ha

/-- C7: a mirror run with `dry_run = true` reports exactly the plan —
`copied = len(to_copy)`, `removed = len(to_delete)`, the plan's `skipped`,
`errors = 0` — and issues zero store-capability calls; a real run on the
same two listings executes exactly that plan (an all-success store
confirms the same counts, and for any store behavior the issued gets and
deletes are exactly the planned `to_copy`/`to_delete` keys). -/
theorem mirror_dry_run_reports_plan (source target : Listing)
    (overwrite remove : Bool) (beh : StoreOp → Nat → Bool) :
    (mirrorRun source target overwrite remove true beh).2 = [] ∧
    (mirrorRun source target overwrite remove true beh).1 =
      ⟨(mirrorPlan source target overwrite remove).toCopy.length,
        (mirrorPlan source target overwrite remove).toRemove.length,
        (mirrorPlan source target overwrite remove).skipped, 0, true⟩ ∧
    (mirrorRun source target overwrite remove false
        fun _ _ => true).1.copied =
      (mirrorRun source target overwrite remove true beh).1.copied ∧
    (mirrorRun source target overwrite remove false
        fun _ _ => true).1.removed =
      (mirrorRun source target overwrite remove true beh).1.removed ∧
    (mirrorRun source target overwrite remove false
        fun _ _ => true).1.skipped =
      (mirrorRun source target overwrite remove true beh).1.skipped ∧
    (mirrorRun source target overwrite remove false
        fun _ _ => true).1.errors = 0 ∧
    (∀ k, (StoreOp.get k, 0) ∈
        (mirrorRun source target overwrite remove false beh).2 ↔
      k ∈ (mirrorPlan source target overwrite remove).toCopy) ∧
    (∀ k, (StoreOp.del k, 0) ∈
        (mirrorRun source target overwrite remove false beh).2 ↔
      (remove = true ∧
        k ∈ (mirrorPlan source target overwrite remove).toRemove)) := by
  refine ⟨rfl, rfl, ?_, ?_, rfl, ?_, ?_, ?_⟩
  · show (execCopies (fun _ _ => true)
        (mirrorPlan source target overwrite remove).toCopy).succ =
      (mirrorPlan source target overwrite remove).toCopy.length
    rw [execCopies_succ]
    simp
  · show (if remove then
        execDeletes (fun _ _ => true)
          (mirrorPlan source target overwrite remove).toRemove
      else ⟨0, 0, []⟩).succ =
      (mirrorPlan source target overwrite remove).toRemove.length
    cases remove with
    | false =>
        rw [mirrorPlan_toRemove_nil source target overwrite]
        rfl
    | true =>
        simp only [eq_self_iff_true, if_true]
        rw [execDeletes_succ]
        simp
  · show (execCopies (fun _ _ => true)
        (mirrorPlan source target overwrite remove).toCopy).errs +
      (if remove then
        execDeletes (fun _ _ => true)
          (mirrorPlan source target overwrite remove).toRemove
      else ⟨0, 0, []⟩).errs = 0
    have h1 := execCopies_succ_add_errs (fun _ _ => true)
      (mirrorPlan source target overwrite remove).toCopy
    have h2 := execCopies_succ (fun _ _ => true)
      (mirrorPlan source target overwrite remove).toCopy
    simp only [Bool.and_self, List.filter_true] at h2
    cases remove with
    | false =>
        show (execCopies (fun _ _ => true)
            (mirrorPlan source target overwrite false).toCopy).errs + 0 = 0
        omega
    | true =>
        simp only [eq_self_iff_true, if_true]
        have h3 := execDeletes_succ_add_errs (fun _ _ => true)
          (mirrorPlan source target overwrite true).toRemove
        have h4 := execDeletes_succ (fun _ _ => true)
          (mirrorPlan source target overwrite true).toRemove
        simp only [List.filter_true] at h4
        omega
  · intro k
    rw [mirrorRun_false_eq]
    show (StoreOp.get k, 0) ∈
        (execCopies beh (mirrorPlan source target overwrite remove).toCopy).calls ++
          (if remove then
            execDeletes beh (mirrorPlan source target overwrite remove).toRemove
          else ⟨0, 0, []⟩).calls ↔ _
    rw [List.mem_append, execCopies_get_mem]
    constructor
    · rintro (h | h)
      · exact h
      · exfalso
        revert h
        cases remove with
        | false => simp
        | true =>
            simp only [eq_self_iff_true, if_true]
            exact get_not_mem_execDeletes beh _ k
    · exact Or.inl
  · intro k
    rw [mirrorRun_false_eq]
    show (StoreOp.del k, 0) ∈
        (execCopies beh (mirrorPlan source target overwrite remove).toCopy).calls ++
          (if remove then
            execDeletes beh (mirrorPlan source target overwrite remove).toRemove
          else ⟨0, 0, []⟩).calls ↔ _
    rw [List.mem_append]
    constructor
    · rintro (h | h)
      · exact absurd h (del_not_mem_execCopies beh _ k)
      · cases remove with
        | false => simp at h
        | true =>
            simp only [eq_self_iff_true, if_true] at h
            exact ⟨rfl, (execDeletes_del_mem beh _ k).mp h⟩
    · rintro ⟨hr, hk⟩
      subst hr
      refine Or.inr ?_
      simp only [eq_self_iff_true, if_true]
      exact (execDeletes_del_mem beh _ k).mpr hk

/-- C5 counterexample: with one key to copy and a store that fails every
call on its first attempt but succeeds on a re-attempt, the executor
counts one error after a single invocation of the get — it never
re-invokes the call — while the Retry Governor applied to the same call
stream (`max_attempts = 3`, error retryable) succeeds on the second
invocation.  The per-key store operations are not wrapped in the Retry
Governor. -/
theorem mirror_executor_retry_counterexample :
    mirrorRun [("a", ⟨some 1, none, some "x"⟩)] [] false false false
        (fun _ n => decide (0 < n)) =
      (⟨0, 0, 0, 1, false⟩, [(StoreOp.get "a", 0)]) ∧
    retryStream
        (fun i => if (fun (_ : StoreOp) n => decide (0 < n))
            (StoreOp.get "a") (i - 1) = true then Except.ok ()
          else Except.error ())
        (fun _ => true) 3 = (Except.ok (), 2) := by
  constructor
  · decide
  · simp [retryStream, retryFrom]

/-- C5 amended: the mirror executor issues every per-key store call
directly, outside the Retry Governor — each issued call carries attempt
index 0, no call is issued twice (for duplicate-free listings the issued
operations are pairwise distinct), and a failing call is counted exactly
once under `errors` while the loop continues. -/
theorem mirror_executor_no_retry (source target : Listing)
    (overwrite remove : Bool) (beh : StoreOp → Nat → Bool)
    (h1 : (keysOf source).Nodup) (h2 : (keysOf target).Nodup) :
    (∀ c ∈ (mirrorRun source target overwrite remove false beh).2,
      c.2 = 0) ∧
    ((mirrorRun source target overwrite remove false beh).2.map
      Prod.fst).Nodup ∧
    (mirrorRun source target overwrite remove false beh).1.errors =
      ((mirrorRun source target overwrite remove false beh).2.filter
        fun c => !beh c.1 c.2).length := by
  rw [mirrorRun_false_eq]
  refine ⟨?_, ?_, ?_⟩
  · intro c hc
    rcases List.mem_append.mp hc with h | h
    · exact execCopies_attempt_zero beh _ c h
    · cases remove with
      | false => simp at h
      | true =>
          simp only [eq_self_iff_true, if_true] at h
          exact execDeletes_attempt_zero beh _ c h
  · show (((execCopies beh
        (mirrorPlan source target overwrite remove).toCopy).calls ++
      (if remove then
        execDeletes beh (mirrorPlan source target overwrite remove).toRemove
      else ⟨0, 0, []⟩).calls).map Prod.fst).Nodup
    rw [List.map_append, List.nodup_append]
    refine ⟨execCopies_ops_nodup beh
      (mirrorPlan_toCopy_nodup h1 h2 overwrite remove), ?_, ?_⟩
    · cases remove with
      | false => simp
      | true =>
          simp only [eq_self_iff_true, if_true]
          exact execDeletes_ops_nodup beh
            (mirrorPlan_toRemove_nodup h1 h2 overwrite true)
    · intro x hx1 hx2
      obtain ⟨c, hc, rfl⟩ := List.mem_map.mp hx1
      obtain ⟨a, _, ha⟩ := execCopies_ops_shape beh _ c hc
      cases remove with
      | false => simp at hx2
      | true =>
          simp only [eq_self_iff_true, if_true] at hx2
          obtain ⟨d, hd, hfst⟩ := List.mem_map.mp hx2
          obtain ⟨b, _, hb⟩ := execDeletes_ops_shape beh _ d hd
          rcases ha with ha | ha <;> rw [ha] at hfst <;> rw [hb] at hfst <;>
            simp at hfst
  · show (execCopies beh
        (mirrorPlan source target overwrite remove).toCopy).errs +
      (if remove then
        execDeletes beh (mirrorPlan source target overwrite remove).toRemove
      else ⟨0, 0, []⟩).errs =
      (((execCopies beh
          (mirrorPlan source target overwrite remove).toCopy).calls ++
        (if remove then
          execDeletes beh
            (mirrorPlan source target overwrite remove).toRemove
        else ⟨0, 0, []⟩).calls).filter fun c => !beh c.1 c.2).length
    rw [List.filter_append, List.length_append]
    rw [execCopies_errs_eq_failed]
    cases remove with
    | false => simp
    | true =>
        simp only [eq_self_iff_true, if_true]
        rw [execDeletes_errs_eq_failed]

/-- Witness for `mirror_executor_no_retry` at a concrete input. -/
theorem mirror_executor_no_retry_witness :
    (mirrorRun [("a", ⟨some 1, none, some "x"⟩)] [] false false false
        (fun _ n => decide (0 < n))).1.errors =
      ((mirrorRun [("a", ⟨some 1, none, some "x"⟩)] [] false false false
          (fun _ n => decide (0 < n))).2.filter
        fun c => !(fun (_ : StoreOp) n => decide (0 < n)) c.1 c.2).length :=
  (mirror_executor_no_retry [("a", ⟨some 1, none, some "x"⟩)] [] false false
    (fun _ n => decide (0 < n)) (by decide) (by decide)).2.2

/-! ### Retry governor lemmas -/

theorem retryFrom_unfold {T E : Type} (op : Nat → Except E T)
    (isRetryable : E → Bool) (m a : Nat) :
    retryFrom op isRetryable m a =
      match op (a + 1) with
      | .ok v => (.ok v, 1)
      | .error e =>
        if m ≤ a + 1 ∨ isRetryable e = false then (.error e, 1)
        else ((retryFrom op isRetryable m (a + 1)).1,
          (retryFrom op isRetryable m (a + 1)).2 + 1) := by
  conv_lhs => rw [retryFrom]

theorem retryFrom_ok {T E : Type} {op : Nat → Except E T}
    {isRetryable : E → Bool} {m a : Nat} {v : T}
    (h : op (a + 1) = .ok v) :
    retryFrom op isRetryable m a = (.ok v, 1) := by
  rw [retryFrom_unfold, h]

theorem retryFrom_error_stop {T E : Type} {op : Nat → Except E T}
    {isRetryable : E → Bool} {m a : Nat} {e : E}
    (h : op (a + 1) = .error e) (hc : m ≤ a + 1 ∨ isRetryable e = false) :
    retryFrom op isRetryable m a = (.error e, 1) := by
  rw [retryFrom_unfold, h]
  exact if_pos hc

theorem retryFrom_error_retry {T E : Type} {op : Nat → Except E T}
    {isRetryable : E → Bool} {m a : Nat} {e : E}
    (h : op (a + 1) = .error e)
    (hc : ¬(m ≤ a + 1 ∨ isRetryable e = false)) :
    retryFrom op isRetryable m a =
      ((retryFrom op isRetryable m (a + 1)).1,
        (retryFrom op isRetryable m (a + 1)).2 + 1) := by
  rw [retryFrom_unfold, h]
  exact if_neg hc

theorem retryFrom_spec_aux {T E : Type} (op : Nat → Except E T)
    (isRetryable : E → Bool) (m : Nat) :
    ∀ (fuel a : Nat), m - a ≤ fuel →
      1 ≤ (retryFrom op isRetryable m a).2 ∧
      (retryFrom op isRetryable m a).2 ≤ max (m - a) 1 ∧
      (retryFrom op isRetryable m a).1 =
        op (a + (retryFrom op isRetryable m a).2) ∧
      (∀ i, a + 1 ≤ i → i < a + (retryFrom op isRetryable m a).2 →
        ∃ e, op i = .error e ∧ isRetryable e = true ∧ i < m) ∧
      (∀ e, (retryFrom op isRetryable m a).1 = .error e →
        (isRetryable e = false ∨ m ≤ a + (retryFrom op isRetryable m a).2)) := by
  intro fuel
  induction fuel with
  | zero =>
      intro a ha
      cases hop : op (a + 1) with
      | ok v =>
          rw [retryFrom_ok hop]
          refine ⟨le_rfl, le_max_right _ 1, hop.symm, ?_, ?_⟩
          · intro i hi1 hi2
            omega
          · intro e he
            exact absurd he (by simp)
      | error e =>
          rw [retryFrom_error_stop hop (Or.inl (by omega))]
          refine ⟨le_rfl, le_max_right _ 1, hop.symm, ?_, ?_⟩
          · intro i hi1 hi2
            omega
          · intro e' he'
            exact Or.inr (by omega)
  | succ n ih =>
      intro a ha
      cases hop : op (a + 1) with
      | ok v =>
          rw [retryFrom_ok hop]
          refine ⟨le_rfl, le_max_right _ 1, hop.symm, ?_, ?_⟩
          · intro i hi1 hi2
            omega
          · intro e he
            exact absurd he (by simp)
      | error e =>
          by_cases hcond : m ≤ a + 1 ∨ isRetryable e = false
          · rw [retryFrom_error_stop hop hcond]
            refine ⟨le_rfl, le_max_right _ 1, hop.symm, ?_, ?_⟩
            · intro i hi1 hi2
              omega
            · intro e' he'
              rcases hcond with hc | hc
              · exact Or.inr (by omega)
              · obtain rfl : e = e' := by injection he'
                exact Or.inl hc
          · rw [retryFrom_error_retry hop hcond]
            push_neg at hcond
            obtain ⟨hlt, hre⟩ := hcond
            have hre' : isRetryable e = true := by
              cases hr : isRetryable e
              · exact absurd hr hre
              · rfl
            obtain ⟨ih1, ih2, ih3, ih4, ih5⟩ := ih (a + 1) (by omega)
            refine ⟨by omega, by omega, ?_, ?_, ?_⟩
            · show (retryFrom op isRetryable m (a + 1)).1 = _
              rw [ih3]
              congr 1
              omega
            · intro i hi1 hi2
              rcases eq_or_lt_of_le hi1 with rfl | hi1b
              · exact ⟨e, hop, hre', by omega⟩
              · exact ih4 i (by omega) (by omega)
            · intro e' he'
              rcases ih5 e' he' with hc | hc
              · exact Or.inl hc
              · exact Or.inr (by omega)

/-- C8: `retry_with_backoff` executes the operation at least once and at
most `max(max_attempts, 1)` times; its result is exactly the last
invocation's result (the last error is surfaced unchanged); every
invocation before the last failed with a retryable error while still below
`max_attempts` (it retries iff retryable and below the bound); a
non-retryable first error returns after exactly 1 invocation; and with
`max_attempts = 3`, two retryable failures followed by a success return
the success after exactly 3 invocations. -/
theorem retry_with_backoff_spec {T E : Type} (op : Nat → Except E T)
    (isRetryable : E → Bool) (m : Nat) :
    1 ≤ (retryStream op isRetryable m).2 ∧
    (retryStream op isRetryable m).2 ≤ max m 1 ∧
    (retryStream op isRetryable m).1 =
      op (retryStream op isRetryable m).2 ∧
    (∀ i, 1 ≤ i → i < (retryStream op isRetryable m).2 →
      ∃ e, op i = .error e ∧ isRetryable e = true ∧ i < m) ∧
    (∀ e, (retryStream op isRetryable m).1 = .error e →
      (isRetryable e = false ∨ m ≤ (retryStream op isRetryable m).2)) ∧
    (∀ e, op 1 = .error e → isRetryable e = false →
      retryStream op isRetryable m = (.error e, 1)) ∧
    (m = 3 →
      (∀ i, 1 ≤ i → i ≤ 2 → ∃ e, op i = .error e ∧ isRetryable e = true) →
      ∀ v, op 3 = .ok v → retryStream op isRetryable m = (.ok v, 3)) := by
  obtain ⟨h1, h2, h3, h4, h5⟩ :=
    retryFrom_spec_aux op isRetryable m (m - 0) 0 le_rfl
  simp only [retryStream]
  refine ⟨h1, by simpa using h2, by simpa using h3, ?_, ?_, ?_, ?_⟩
  · intro i hi1 hi2
    exact h4 i (by omega) (by omega)
  · intro e he
    rcases h5 e he with hc | hc
    · exact Or.inl hc
    · exact Or.inr (by omega)
  · intro e hop hre
    exact retryFrom_error_stop hop (Or.inr hre)
  · intro hm hfails v hok
    subst hm
    obtain ⟨e1, he1, hr1⟩ := hfails 1 le_rfl (by omega)
    obtain ⟨e2, he2, hr2⟩ := hfails 2 (by omega) le_rfl
    have u2 : retryFrom op isRetryable 3 2 = (.ok v, 1) :=
      retryFrom_ok hok
    have u1 : retryFrom op isRetryable 3 1 = (.ok v, 2) := by
      rw [retryFrom_error_retry he2 (by simp [hr2]), u2]
    rw [retryFrom_error_retry he1 (by simp [hr1]), u1]

/-- Witness for `retry_with_backoff_spec`: an operation failing with a
retryable error on invocations 1 and 2 then succeeding, under
`max_attempts = 3`, returns the success after exactly 3 invocations. -/
theorem retry_with_backoff_spec_witness :
    retryStream failTwiceOp (fun _ => true) 3 = (.ok 42, 3) :=
  (retry_with_backoff_spec failTwiceOp (fun _ => true) 3).2.2.2.2.2.2 rfl
    (by intro i h1 h2
        interval_cases i
        · exact ⟨"timeout", rfl, rfl⟩
        · exact ⟨"timeout", rfl, rfl⟩)
    42 rfl

/-! ### Backoff computation -/

/-- C9 counterexample: with `initial_backoff_ms = 0` (a legal `u64`
config value) the capped backoff is 0, the claimed half-open jitter
interval `[0, capped)` is empty, and no jitter value satisfies
`sleep = capped + jitter` with `jitter < capped`; the code sleeps 0. -/
theorem calculate_backoff_counterexample :
    calculate_backoff ⟨3, 0, 10000⟩ 1 5 = 0 ∧
    ¬ ∃ j : Nat, j < min (0 * 2 ^ min (1 - 1) 10) 10000 ∧
      calculate_backoff ⟨3, 0, 10000⟩ 1 5 =
        min (0 * 2 ^ min (1 - 1) 10) 10000 + j := by
  constructor
  · decide
  · rintro ⟨j, hj, _⟩
    simp at hj

/-- C9 amended: for every config and attempt `n ≥ 1`, the computed sleep
equals `(capped + jitter) mod 2^64`, where
`capped = min((initial_backoff_ms * 2^min(n-1,10)) mod 2^64,
max_backoff_ms)` and the jitter lies in `[0, capped)` whenever
`capped > 0`, and is 0 when `capped = 0`. -/
theorem calculate_backoff_spec (config : RetryConfig) (attempt nanos : Nat)
    (h1 : 1 ≤ attempt) :
    ∃ j : Nat,
      calculate_backoff config attempt nanos =
        u64 (min (u64 (config.initial_backoff_ms * 2 ^ min (attempt - 1) 10))
          config.max_backoff_ms + j) ∧
      (0 < min (u64 (config.initial_backoff_ms * 2 ^ min (attempt - 1) 10))
          config.max_backoff_ms →
        j < min (u64 (config.initial_backoff_ms * 2 ^ min (attempt - 1) 10))
          config.max_backoff_ms) ∧
      (min (u64 (config.initial_backoff_ms * 2 ^ min (attempt - 1) 10))
          config.max_backoff_ms = 0 → j = 0) := by
  refine ⟨rand_jitter nanos
    (min (u64 (config.initial_backoff_ms * 2 ^ min (attempt - 1) 10))
      config.max_backoff_ms), rfl, ?_, ?_⟩
  · intro hpos
    unfold rand_jitter
    rw [max_eq_left hpos]
    exact Nat.mod_lt _ hpos
  · intro h0
    unfold rand_jitter
    rw [h0]
    exact Nat.mod_one nanos

/-- Witness for `calculate_backoff_spec` at a concrete config. -/
theorem calculate_backoff_spec_witness :
    ∃ j : Nat,
      calculate_backoff ⟨3, 100, 10000⟩ 1 7 =
        u64 (min (u64 (100 * 2 ^ min (1 - 1) 10)) 10000 + j) ∧
      (0 < min (u64 (100 * 2 ^ min (1 - 1) 10)) 10000 →
        j < min (u64 (100 * 2 ^ min (1 - 1) 10)) 10000) ∧
      (min (u64 (100 * 2 ^ min (1 - 1) 10)) 10000 = 0 → j = 0) :=
  calculate_backoff_spec ⟨3, 100, 10000⟩ 1 7 (by decide)

/-! ### Listing materialization of an empty relative key -/

theorem lookupL_insertL (m : Listing) (k : String) (v : FileInfo) :
    lookupL (insertL m k v) k = some v := by
  induction m with
  | nil => simp [insertL, lookupL]
  | cons kv rest ih =>
      obtain ⟨k', v'⟩ := kv
      by_cases h : k' = k
      · subst h
        simp [insertL, lookupL]
      · simp [insertL, lookupL, h, ih]

/-- C10 counterexample: an object whose relative key becomes empty (the
single-object-as-root case) is keyed by the last path segment in the diff
listing, but omitted entirely from the mirror listing (which the claim
says also applies the fallback). -/
theorem list_map_empty_relkey_counterexample :
    diffListMap "dir/file.txt"
        [⟨"dir/file.txt", false, some 5, none, some "e"⟩] =
      [("file.txt", ⟨some 5, none, some "e"⟩)] ∧
    mirrorListMap "dir/file.txt"
        [⟨"dir/file.txt", false, some 5, none, some "e"⟩] = [] := by
  constructor
  · decide
  · decide

/-- C10 amended: for every listed non-directory object whose relative key
is empty after stripping the root prefix and leading `/`, the diff listing
step inserts one entry keyed by the last path segment of the absolute key
(falling back to the whole key when it has no file name), so the object is
neither omitted nor keyed by the empty string; the mirror listing step,
however, skips such an object entirely, leaving its map unchanged. -/
theorem list_map_empty_relkey_spec (basePfx : String) (item : ListItem)
    (m : Listing) (hdir : item.is_dir = false)
    (hrel : relKey basePfx item.key = "") :
    diffInsertItem basePfx m item =
      insertL m ((fileName item.key).getD item.key)
        ⟨item.size_bytes, item.last_modified, item.etag⟩ ∧
    lookupL (diffInsertItem basePfx m item)
        ((fileName item.key).getD item.key) =
      some ⟨item.size_bytes, item.last_modified, item.etag⟩ ∧
    mirrorInsertItem basePfx m item = m := by
  have hd : diffInsertItem basePfx m item =
      insertL m ((fileName item.key).getD item.key)
        ⟨item.size_bytes, item.last_modified, item.etag⟩ := by
    simp [diffInsertItem, hdir, hrel]
  refine ⟨hd, ?_, by simp [mirrorInsertItem, hdir, hrel]⟩
  rw [hd]
  exact lookupL_insertL m _ _

/-- Witness for `list_map_empty_relkey_spec` at a concrete input. -/
theorem list_map_empty_relkey_spec_witness :
    mirrorInsertItem "a/b.txt" [("x", ⟨some 1, none, none⟩)]
        ⟨"a/b.txt", false, some 5, none, some "e"⟩ =
      [("x", ⟨some 1, none, none⟩)] :=
  (list_map_empty_relkey_spec "a/b.txt"
    ⟨"a/b.txt", false, some 5, none, some "e"⟩
    [("x", ⟨some 1, none, none⟩)] rfl (by decide)).2.2

/-- Witness for `mirror_executor_invariants` at a concrete input. -/
theorem mirror_executor_invariants_witness :
    (mirrorRun [("a", ⟨some 1, none, some "x"⟩)] [] false false false
        fun _ _ => true).1.copied +
      (mirrorRun [("a", ⟨some 1, none, some "x"⟩)] [] false false false
        fun _ _ => true).1.removed +
      (mirrorRun [("a", ⟨some 1, none, some "x"⟩)] [] false false false
        fun _ _ => true).1.skipped +
      (mirrorRun [("a", ⟨some 1, none, some "x"⟩)] [] false false false
        fun _ _ => true).1.errors =
      (mirrorPlan [("a", ⟨some 1, none, some "x"⟩)] [] false
          false).toCopy.length +
        (mirrorPlan [("a", ⟨some 1, none, some "x"⟩)] [] false
          false).toRemove.length +
        (mirrorPlan [("a", ⟨some 1, none, some "x"⟩)] [] false
          false).skipped :=
  (mirror_executor_invariants [("a", ⟨some 1, none, some "x"⟩)] [] false false
    fun _ _ => true).1

/-- Witness for `mirror_dry_run_reports_plan`: dry run over one
`OnlyFirst` and one `OnlySecond` key with `delete_extraneous = true`
reports 1 to copy, 1 to delete, 0 skipped, 0 errors, and issues no store
call. -/
theorem mirror_dry_run_reports_plan_witness :
    (mirrorRun [("a", ⟨some 1, none, some "x"⟩)]
        [("b", ⟨some 2, none, some "y"⟩)] false true true
        fun _ _ => true).1 = ⟨1, 1, 0, 0, true⟩ ∧
    (mirrorRun [("a", ⟨some 1, none, some "x"⟩)]
        [("b", ⟨some 2, none, some "y"⟩)] false true true
        fun _ _ => true).2 = [] :=
  ⟨((mirror_dry_run_reports_plan [("a", ⟨some 1, none, some "x"⟩)]
      [("b", ⟨some 2, none, some "y"⟩)] false true
      fun _ _ => true).2.1).trans (by decide),
    (mirror_dry_run_reports_plan [("a", ⟨some 1, none, some "x"⟩)]
      [("b", ⟨some 2, none, some "y"⟩)] false true fun _ _ => true).1⟩
